import Mathlib

/-!
# Verification of the ThreadPool lazy sequence adapters

Shallow embedding of `threadpool/make_iterator.h` (the lazy sequence
adapters `FunctionInputIterator`, `FunctionInputIteratorRange` and
`FunctionOutputIterator`) together with spec-level models of the parts of
the pool engine whose implementation files are not in the tree
(`submit_range` result ordering and task error propagation).

Modelling choices:

* A producer callable (`Function` in the C++ source) is a stateful
  zero-argument function.  We model it as a pure function
  `fn : Nat → Option α` applied at an explicit invocation counter
  `callCount`: the k-th invocation returns `fn k`; `some a` models a
  normal return of `a`, `none` models throwing `std::out_of_range`.

* The shared `Values` struct held behind `std::shared_ptr<Values> v` is
  modelled literally (fields `last`, `value_valid`, the function, the
  `ref_value` cache).  The cache is `Option α`, `none` standing for the
  default-constructed (never assigned) `ref_value`.

* Sharing between iterator copies is modelled with an explicit heap: a
  list of `Values` cells addressed by index.  An iterator is
  `Option Nat`: `none` is a default-constructed iterator (null
  `shared_ptr`), `some i` points at cell `i`.  Copying an iterator copies
  the `shared_ptr`, i.e. the address, never the cell.

* Throwing `std::out_of_range` out of `operator*` is modelled by the
  result `none` of `derefCell` / `derefAt`.
-/

namespace ThreadPoolSpec

/-- The shared state behind `FunctionInputIterator::v`
(struct `Values` in `make_iterator.h`).  `fn`/`callCount` together model
the stored stateful callable `Function fun`; `value` models the
`ref_value` cache (`none` = default-constructed, not yet assigned). -/
structure Values (α : Type) where
  last : Bool
  value_valid : Bool
  fn : Nat → Option α
  callCount : Nat
  value : Option α

/-- Constructor `Values(fun)`: the constructor sets `last = false`,
`value_valid = false`, stores the function, leaves the cache
default-constructed. -/
def initValues (fn : Nat → Option α) : Values α :=
  ⟨false, false, fn, 0, none⟩

/-- The lookahead step performed by `operator==` on one side:
`if (v != nullptr && !(v->last || v->value_valid)) { try { v->value = v->fun(); v->value_valid = true; } catch (std::out_of_range) { v->last = true; } }`
(the null test lives at the heap level, this is the per-cell effect). -/
def forceLookahead (v : Values α) : Values α :=
  if v.last || v.value_valid then v
  else
    match v.fn v.callCount with
    | some a =>
        { v with value := some a, value_valid := true, callCount := v.callCount + 1 }
    | none =>
        { v with last := true, callCount := v.callCount + 1 }

/-- Dereference `FunctionInputIterator::operator*` acting on the shared cell.
Returns `(some a, v')` when the C++ returns the value `a`, and
`(none, v')` when it throws `std::out_of_range`. -/
def derefCell (v : Values α) : Option α × Values α :=
  let v1 :=
    if v.value_valid then { v with value_valid := false }
    else if v.last then v
    else
      match v.fn v.callCount with
      | some a => { v with value := some a, callCount := v.callCount + 1 }
      | none => { v with last := true, callCount := v.callCount + 1 }
  if v1.last then (none, v1) else (v1.value, v1)

/-- The heap of shared `Values` cells: each `std::shared_ptr<Values>`
points at one entry. -/
abbrev Heap (α : Type) := List (Values α)

/-- A `FunctionInputIterator` is a (possibly null) pointer to a shared
cell: `none` models a default-constructed iterator (null `shared_ptr`). -/
abbrev Iter := Option Nat

/-- Update the cell at address `i` in place (out-of-range addresses,
which never arise, are left alone). -/
def modifyAt (h : Heap α) (i : Nat) (f : Values α → Values α) : Heap α :=
  match h.get? i with
  | some v => h.set i (f v)
  | none => h

/-- The test `v == nullptr || v->last`: the end test applied to one side of
`operator==` after the lookahead has been forced. -/
def isEnd (h : Heap α) : Iter → Bool
  | none => true
  | some i =>
    match h.get? i with
    | some v => v.last
    | none => true

/-- Force the lookahead on one side of `operator==` (no-op for a null
iterator, mutation of the shared cell otherwise). -/
def forceAt (h : Heap α) : Iter → Heap α
  | none => h
  | some i => modifyAt h i forceLookahead

/-- Comparison `FunctionInputIterator::operator==`: force the lookahead on the left
side, then (possibly through the bounded recursion `x.operator==(*this)`)
on the right side, then compare `(v == nullptr || v->last)` of the two
sides.  The recursion in the source only swaps the comparison order,
which is symmetric, so the flattened form is exact, including the case
of two copies aliasing one cell (forcing is idempotent once
`last || value_valid` holds). -/
def iterEq (h : Heap α) (a b : Iter) : Bool × Heap α :=
  let h1 := forceAt h a
  let h2 := forceAt h1 b
  ((isEnd h2 a) == (isEnd h2 b), h2)

/-- Dereference `FunctionInputIterator::operator*` at the heap level.  The source
comment states the caller must have checked the iterator is not at the
end, so the null case never arises; it is modelled as throwing. -/
def derefAt (h : Heap α) : Iter → Option α × Heap α
  | none => (none, h)
  | some i =>
    match h.get? i with
    | some v =>
      let r := derefCell v
      (r.1, h.set i r.2)
    | none => (none, h)

/-- Copying, `FunctionInputIterator(const FunctionInputIterator&) = default`:
copying copies the member `std::shared_ptr<Values> v`, i.e. the address;
no cell is touched and no producer runs. -/
def copyIter (h : Heap α) (it : Iter) : Heap α × Iter := (h, it)

/-- Advancing, `operator++` (both forms): `return *this;` — a no-op. -/
def advanceIter (h : Heap α) (it : Iter) : Heap α × Iter := (h, it)

/-- Construction `FunctionInputIterator(fun)`: allocate a fresh shared cell
(`v(new Values(fun))`) and point at it. -/
def mkIterFrom (h : Heap α) (fn : Nat → Option α) : Heap α × Iter :=
  (h ++ [initValues fn], some h.length)

/-- Total number of producer invocations recorded in the heap. -/
def totalCalls (h : Heap α) : Nat :=
  (h.map (fun v => v.callCount)).sum

/-- Range `FunctionInputIteratorRange`: holds `std::shared_ptr<Function> fun`;
the range itself never invokes the function, so its state is just the
function value. -/
structure FunctionInputIteratorRange (α : Type) where
  fn : Nat → Option α

/-- Member `FunctionInputIteratorRange::begin()`:
`return FunctionInputIterator<Function>(*fun.get());` — constructs a
fresh iterator whose `Values` cell holds its own copy of the range's
function, taken in its current (never-invoked) state. -/
def FunctionInputIteratorRange.begin (r : FunctionInputIteratorRange α)
    (h : Heap α) : Heap α × Iter :=
  mkIterFrom h r.fn

/-- Member `FunctionInputIteratorRange::end()`: a default-constructed (null)
iterator. -/
def FunctionInputIteratorRange.endIter (_ : FunctionInputIteratorRange α) : Iter :=
  none

/-- The two iterator operations that touch the shared cell:
`derefStar` is the per-cell effect of `operator*`, `eqForce` is the
per-cell effect of taking part in an `operator==` comparison
(each copy sharing the cell performs these through the same cell). -/
inductive IterOp where
  | derefStar : IterOp
  | eqForce : IterOp

/-- Effect of one operation on the shared cell. -/
def applyOp : IterOp → Values α → Values α
  | .derefStar, v => (derefCell v).2
  | .eqForce, v => forceLookahead v

/-- Effect of a sequence of operations (through any mix of copies
sharing the cell) on the shared cell. -/
def applyOps : List IterOp → Values α → Values α
  | [], v => v
  | op :: ops, v => applyOps ops (applyOp op v)

/-- The canonical single-pass consumption loop over
`[FunctionInputIterator(fun), FunctionInputIterator())`:
`while (it != end) { out = *it; ++it; }` expressed on the shared cell.
The `it != end` test forces the lookahead (`forceLookahead`) and, since
the end iterator is null, continues exactly while `last` is false; the
body then dereferences (`derefCell`) and advances (a no-op).  `fuel`
bounds the number of loop iterations. -/
def drain (fuel : Nat) (v : Values α) : List α :=
  match fuel with
  | 0 => []
  | fuel + 1 =>
    let v1 := forceLookahead v
    if v1.last then []
    else
      match derefCell v1 with
      | (some a, v2) => a :: drain fuel v2
      | (none, _) => []

/-!
## Output adapter (`FunctionOutputIterator`)

The consumer callable is modelled by its invocation log: `calls` is the
list of arguments the consumer has been called with, in order.
-/

/-- State of the consumer held by a `FunctionOutputIterator` (the
callable behind `std::shared_ptr<Function> fun`), modelled as its
invocation log. -/
structure OutState (α : Type) where
  calls : List α

/-- Assignment `FunctionOutputIterator::operator=(Arg&& arg)`:
`(*fun.get())(std::forward<Arg>(arg));` — one consumer invocation with
the assigned value. -/
def outAssign (s : OutState α) (x : α) : OutState α :=
  ⟨s.calls ++ [x]⟩

/-- Advancing, `FunctionOutputIterator::operator++` (both forms): `return *this;`
— no consumer invocation, no state change. -/
def outInc (s : OutState α) : OutState α := s

/-- Dereference `FunctionOutputIterator::operator*`: `return *this;` — no consumer
invocation, no state change. -/
def outDeref (s : OutState α) : OutState α := s

/-- Writing a whole sequence through the sink with the idiomatic
`*it = x; ++it;` per element. -/
def writeAll (s : OutState α) : List α → OutState α
  | [] => s
  | x :: xs => writeAll (outInc (outAssign (outDeref s) x)) xs

/-!
## Spec-modelled engine parts

The statically-specialized pool (`threadpool.h`, `threadpool_impl.h`,
`threadpool_impl_homogenous.h`) is referenced by the build files in the
tree but its implementation is not present; the following definitions
are built from the specification's words.
-/

/-- Modelled from the spec: the pool's workers complete the tasks of
`submit_range` in an arbitrary order.  A completion schedule is the list
of submission indices in the order the workers finish them; each
finished task `i` delivers the pair `(i, f xᵢ)` into the result store.
(The implementation files for the statically-specialized engine are not
in the tree.) -/
def completions (f : α → β) (xs : List α) (order : List Nat) : List (Nat × β) :=
  order.filterMap fun i => (xs.get? i).map fun x => (i, f x)

/-- Modelled from the spec: the lazy output sequence of `submit_range`
"blocks on and yields the next completed result in submission order":
result `i` is looked up in the store of completed results by its
submission index, for `i = 0, 1, ...`. -/
def collectInOrder (n : Nat) (rs : List (Nat × β)) : List β :=
  (List.range n).filterMap fun i => (rs.find? fun r => r.1 == i).map Prod.snd

/-- Modelled from the spec: `submit_range(inputSeq)` enqueues one task
per input value and returns the lazy output sequence, observed here
after the workers finished in completion order `order`. -/
def submitRange (f : α → β) (xs : List α) (order : List Nat) : List β :=
  collectInOrder xs.length (completions f xs order)

/-- Modelled from the spec: a task's outcome.  `Completed` holds the
returned value, `Failed` the captured error (the spec's state set is
{Pending, Running, Completed(value), Failed(error)}; execution below
always reaches one of the two final states). -/
inductive TaskState (ε β : Type) where
  | Pending : TaskState ε β
  | Running : TaskState ε β
  | Completed : β → TaskState ε β
  | Failed : ε → TaskState ε β

/-- Modelled from the spec: the pool's mutable worker set, abstracted to
its size (the only aspect the error-propagation contract constrains). -/
structure SpecPool where
  workers : Nat

/-- Modelled from the spec: one worker executes one task exactly once.
The task body either returns a value (`Except.ok`) or raises an error
(`Except.error`); an error is captured and stored, the handle
transitions to `Failed`, and the worker thread survives (the pool is
returned unchanged). -/
def runTask (p : SpecPool) (t : Except ε β) : SpecPool × TaskState ε β :=
  (p, match t with
      | .ok v => .Completed v
      | .error e => .Failed e)

/-- Modelled from the spec: `handle.get()` blocks until the task is
`Completed` or `Failed`; once final it returns the value or re-raises
the captured error.  `none` models "still blocking". -/
def handleGet : TaskState ε β → Option (Except ε β)
  | .Completed v => some (.ok v)
  | .Failed e => some (.error e)
  | .Pending => none
  | .Running => none

/-- Modelled from the spec: a worker drains a queue of tasks in order,
executing each exactly once; a failing task never terminates the worker,
so every queued task still gets executed. -/
def runAll (p : SpecPool) : List (Except ε β) → SpecPool × List (TaskState ε β)
  | [] => (p, [])
  | t :: ts =>
    let r1 := runTask p t
    let r2 := runAll r1.1 ts
    (r2.1, r1.2 :: r2.2)

/-- The invariant connecting a cell's bookkeeping with its producer:
producer invocations happen in order, every invocation before the
current position returned a value while the cell is live, and once the
cell is exhausted the final invocation is the only one that signalled
end-of-sequence. -/
def ProducedInOrder (v : Values α) : Prop :=
  (v.last = false → ∀ j, j < v.callCount → (v.fn j).isSome)
  ∧ (v.last = true →
      v.fn (v.callCount - 1) = none ∧ ∀ j, j + 1 < v.callCount → (v.fn j).isSome)

/-!
## Helper lemmas
-/

theorem forceLookahead_of_guard (v : Values α) (h : (v.last || v.value_valid) = true) :
    forceLookahead v = v := by
  simp [forceLookahead, h]

theorem forceLookahead_some (v : Values α) (a : α)
    (hl : v.last = false) (hv : v.value_valid = false)
    (hf : v.fn v.callCount = some a) :
    forceLookahead v
      = { v with value := some a, value_valid := true, callCount := v.callCount + 1 } := by
  simp [forceLookahead, hl, hv, hf]

theorem forceLookahead_none (v : Values α)
    (hl : v.last = false) (hv : v.value_valid = false)
    (hf : v.fn v.callCount = none) :
    forceLookahead v = { v with last := true, callCount := v.callCount + 1 } := by
  simp [forceLookahead, hl, hv, hf]

theorem forceLookahead_forced (v : Values α) :
    ((forceLookahead v).last || (forceLookahead v).value_valid) = true := by
  cases hg : (v.last || v.value_valid) with
  | true => rw [forceLookahead_of_guard v hg]; exact hg
  | false =>
    obtain ⟨hl, hv⟩ := Bool.or_eq_false_iff.mp hg
    cases hf : v.fn v.callCount with
    | some a => rw [forceLookahead_some v a hl hv hf]; simp
    | none => rw [forceLookahead_none v hl hv hf]; simp

theorem forceLookahead_idem (v : Values α) :
    forceLookahead (forceLookahead v) = forceLookahead v :=
  forceLookahead_of_guard _ (forceLookahead_forced v)

theorem derefCell_valid (v : Values α) (hv : v.value_valid = true) :
    derefCell v
      = ((if v.last = true then none else v.value), { v with value_valid := false }) := by
  simp only [derefCell, hv, if_true]
  cases v.last <;> simp

theorem derefCell_last (v : Values α) (hv : v.value_valid = false) (hl : v.last = true) :
    derefCell v = (none, v) := by
  simp [derefCell, hv, hl]

theorem derefCell_some (v : Values α) (a : α)
    (hv : v.value_valid = false) (hl : v.last = false)
    (hf : v.fn v.callCount = some a) :
    derefCell v = (some a, { v with value := some a, callCount := v.callCount + 1 }) := by
  simp [derefCell, hv, hl, hf]

theorem derefCell_none (v : Values α)
    (hv : v.value_valid = false) (hl : v.last = false)
    (hf : v.fn v.callCount = none) :
    derefCell v = (none, { v with last := true, callCount := v.callCount + 1 }) := by
  simp [derefCell, hv, hl, hf]

theorem forceLookahead_fn (v : Values α) : (forceLookahead v).fn = v.fn := by
  cases hg : (v.last || v.value_valid) with
  | true => rw [forceLookahead_of_guard v hg]
  | false =>
    obtain ⟨hl, hv⟩ := Bool.or_eq_false_iff.mp hg
    cases hf : v.fn v.callCount with
    | some a => rw [forceLookahead_some v a hl hv hf]
    | none => rw [forceLookahead_none v hl hv hf]

theorem derefCell_fn (v : Values α) : (derefCell v).2.fn = v.fn := by
  cases hv : v.value_valid with
  | true => rw [derefCell_valid v hv]
  | false =>
    cases hl : v.last with
    | true => rw [derefCell_last v hv hl]
    | false =>
      cases hf : v.fn v.callCount with
      | some a => rw [derefCell_some v a hv hl hf]
      | none => rw [derefCell_none v hv hl hf]

theorem applyOp_fn (op : IterOp) (v : Values α) : (applyOp op v).fn = v.fn := by
  cases op with
  | derefStar => exact derefCell_fn v
  | eqForce => exact forceLookahead_fn v

theorem applyOp_of_last (op : IterOp) (v : Values α) (h : v.last = true) :
    (applyOp op v).last = true ∧ (applyOp op v).callCount = v.callCount := by
  cases op with
  | eqForce =>
    rw [applyOp, forceLookahead_of_guard v (by simp [h])]
    exact ⟨h, rfl⟩
  | derefStar =>
    rw [applyOp]
    cases hvv : v.value_valid with
    | true => rw [derefCell_valid v hvv]; exact ⟨h, rfl⟩
    | false => rw [derefCell_last v hvv h]; exact ⟨h, rfl⟩

theorem applyOps_of_last (ops : List IterOp) (v : Values α) (h : v.last = true) :
    (applyOps ops v).last = true ∧ (applyOps ops v).callCount = v.callCount := by
  induction ops generalizing v with
  | nil => exact ⟨h, rfl⟩
  | cons op ops ih =>
    obtain ⟨h1, h2⟩ := applyOp_of_last op v h
    obtain ⟨h3, h4⟩ := ih (applyOp op v) h1
    exact ⟨h3, by rw [applyOps, h4, h2]⟩

theorem producedInOrder_call_some (v : Values α) (a : α)
    (hl : v.last = false) (hf : v.fn v.callCount = some a)
    (h : ProducedInOrder v) :
    ProducedInOrder { v with value := some a, value_valid := true, callCount := v.callCount + 1 } := by
  obtain ⟨hlive, _⟩ := h
  constructor
  · intro _ j hj
    simp only at hj ⊢
    rcases Nat.lt_succ_iff_lt_or_eq.mp hj with hj' | hj'
    · exact hlive hl j hj'
    · rw [hj', hf]; rfl
  · intro hc
    simp only at hc
    rw [hl] at hc
    exact absurd hc (by simp)

theorem producedInOrder_call_none (v : Values α)
    (hl : v.last = false) (hf : v.fn v.callCount = none)
    (h : ProducedInOrder v) :
    ProducedInOrder { v with last := true, callCount := v.callCount + 1 } := by
  obtain ⟨hlive, _⟩ := h
  constructor
  · intro hc
    simp only at hc
    exact absurd hc (by simp)
  · intro _
    refine ⟨by simpa using hf, ?_⟩
    intro j hj
    simp only at hj ⊢
    exact hlive hl j (by omega)

theorem producedInOrder_unvalid (v : Values α) (h : ProducedInOrder v) :
    ProducedInOrder { v with value_valid := false } := by
  obtain ⟨hlive, hdead⟩ := h
  exact ⟨fun h' => hlive h', fun h' => hdead h'⟩

theorem applyOp_inv (op : IterOp) (v : Values α) (h : ProducedInOrder v) :
    ProducedInOrder (applyOp op v) := by
  cases op with
  | eqForce =>
    rw [applyOp]
    cases hg : (v.last || v.value_valid) with
    | true => rw [forceLookahead_of_guard v hg]; exact h
    | false =>
      obtain ⟨hl, hv⟩ := Bool.or_eq_false_iff.mp hg
      cases hf : v.fn v.callCount with
      | some a =>
        rw [forceLookahead_some v a hl hv hf]
        exact producedInOrder_call_some v a hl hf h
      | none =>
        rw [forceLookahead_none v hl hv hf]
        exact producedInOrder_call_none v hl hf h
  | derefStar =>
    rw [applyOp]
    cases hvv : v.value_valid with
    | true =>
      rw [derefCell_valid v hvv]
      exact producedInOrder_unvalid v h
    | false =>
      cases hl : v.last with
      | true => rw [derefCell_last v hvv hl]; exact h
      | false =>
        cases hf : v.fn v.callCount with
        | some a =>
          rw [derefCell_some v a hvv hl hf]
          have h2 := producedInOrder_call_some v a hl hf h
          obtain ⟨hlive, hdead⟩ := h2
          exact ⟨fun h' => hlive h', fun h' => hdead h'⟩
        | none =>
          rw [derefCell_none v hvv hl hf]
          exact producedInOrder_call_none v hl hf h

theorem applyOps_inv (ops : List IterOp) (v : Values α) (h : ProducedInOrder v) :
    ProducedInOrder (applyOps ops v) := by
  induction ops generalizing v with
  | nil => exact h
  | cons op ops ih => exact ih _ (applyOp_inv op v h)

theorem applyOps_fn (ops : List IterOp) (v : Values α) :
    (applyOps ops v).fn = v.fn := by
  induction ops generalizing v with
  | nil => rfl
  | cons op ops ih => rw [applyOps, ih, applyOp_fn]

theorem initValues_inv (fn : Nat → Option α) : ProducedInOrder (initValues fn) := by
  constructor
  · intro _ j hj
    simp [initValues] at hj
  · intro hc
    simp [initValues] at hc

/-!
## Claim theorems
-/

/-- C1: every copy of a `FunctionInputIterator` shares the same
underlying cursor cell (the copy constructor copies the `shared_ptr`,
i.e. the address): the copy aliases the original's cell, copying leaves
the heap — in particular every producer invocation count — untouched
(the producer is neither re-run nor reset), and consuming (`operator*`)
or comparing (`operator==`) through the copy is literally an operation
on the very cell the original reads, so it is observed through every
other copy. -/
theorem copy_shares_cursor (h : Heap α) (it : Iter) :
    (copyIter h it).2 = it
    ∧ (copyIter h it).1 = h
    ∧ totalCalls (copyIter h it).1 = totalCalls h
    ∧ derefAt (copyIter h it).1 (copyIter h it).2 = derefAt h it
    ∧ iterEq (copyIter h it).1 (copyIter h it).2 it = iterEq h it it
    ∧ advanceIter h it = (h, it) :=
  ⟨rfl, rfl, rfl, rfl, rfl, rfl⟩

/-- C2: once the producer has signalled end-of-sequence (`last` is set,
which happens exactly when an invocation throws `std::out_of_range`
inside `operator*` or `operator==`), every further operation through any
copy sharing the cell keeps reporting exhaustion and never invokes the
producer again (the invocation count is frozen); moreover along any
operation sequence from a freshly constructed iterator, every producer
invocation except possibly the final one returned a real value — the
producer is invoked at most once past its last real value. -/
theorem end_is_final :
    (∀ (v : Values α) (ops : List IterOp), v.last = true →
      (applyOps ops v).last = true ∧ (applyOps ops v).callCount = v.callCount)
    ∧ (∀ (fn : Nat → Option α) (ops : List IterOp),
      (applyOps ops (initValues fn)).last = true →
        fn ((applyOps ops (initValues fn)).callCount - 1) = none
        ∧ ∀ j, j + 1 < (applyOps ops (initValues fn)).callCount → (fn j).isSome) := by
  constructor
  · exact fun v ops h => applyOps_of_last ops v h
  · intro fn ops h
    have hinv := applyOps_inv ops (initValues fn) (initValues_inv fn)
    have hfn : (applyOps ops (initValues fn)).fn = fn := applyOps_fn ops (initValues fn)
    obtain ⟨_, hdead⟩ := hinv
    obtain ⟨h1, h2⟩ := hdead h
    rw [hfn] at h1
    refine ⟨h1, fun j hj => ?_⟩
    have := h2 j hj
    rwa [hfn] at this

/-- Witness for C2, at an exhausted cell and at a producer that ends
immediately. -/
theorem end_is_final_witness :
    ((applyOps [IterOp.derefStar, IterOp.eqForce]
        ({ last := true, value_valid := false, fn := fun _ => (none : Option Nat),
           callCount := 1, value := none } : Values Nat)).last = true
      ∧ (applyOps [IterOp.derefStar, IterOp.eqForce]
        ({ last := true, value_valid := false, fn := fun _ => (none : Option Nat),
           callCount := 1, value := none } : Values Nat)).callCount = 1)
    ∧ ((fun _ => (none : Option Nat))
          ((applyOps [IterOp.eqForce] (initValues fun _ => (none : Option Nat))).callCount - 1) = none
      ∧ ∀ j, j + 1 < (applyOps [IterOp.eqForce] (initValues fun _ => (none : Option Nat))).callCount
          → ((fun _ => (none : Option Nat)) j).isSome) :=
  ⟨end_is_final.1 _ [IterOp.derefStar, IterOp.eqForce] rfl,
   end_is_final.2 (fun _ => none) [IterOp.eqForce] rfl⟩

/-- C3: at a position where neither exhaustion nor a cached lookahead is
recorded, the end-of-sequence query (`operator==`) invokes the producer
exactly once (the invocation count rises by one), repeating the query
without consuming is the identity (zero further invocations), and when
the producer returned a value, that exact value is cached and is the one
returned by the next `operator*`, which itself performs no further
producer invocation. -/
theorem eq_invokes_once_per_position (v : Values α)
    (hl : v.last = false) (hv : v.value_valid = false) :
    (forceLookahead v).callCount = v.callCount + 1
    ∧ forceLookahead (forceLookahead v) = forceLookahead v
    ∧ ∀ a, v.fn v.callCount = some a →
        (forceLookahead v).value = some a
        ∧ (derefCell (forceLookahead v)).1 = some a
        ∧ (derefCell (forceLookahead v)).2.callCount = (forceLookahead v).callCount := by
  refine ⟨?_, forceLookahead_idem v, ?_⟩
  · cases hf : v.fn v.callCount with
    | some a => rw [forceLookahead_some v a hl hv hf]
    | none => rw [forceLookahead_none v hl hv hf]
  · intro a hf
    rw [forceLookahead_some v a hl hv hf]
    refine ⟨rfl, ?_, ?_⟩
    · rw [derefCell_valid _ rfl]
      simp [hl]
    · rw [derefCell_valid _ rfl]

/-- Witness for C3 at the producer of the naturals. -/
theorem eq_invokes_once_per_position_witness :
    (forceLookahead (initValues fun n => some n)).callCount = 0 + 1
    ∧ forceLookahead (forceLookahead (initValues fun n => some n))
        = forceLookahead (initValues fun n => some n)
    ∧ ∀ a, (some 0 : Option Nat) = some a →
        (forceLookahead (initValues fun n => some n)).value = some a
        ∧ (derefCell (forceLookahead (initValues fun n => some n))).1 = some a
        ∧ (derefCell (forceLookahead (initValues fun n => some n))).2.callCount
            = (forceLookahead (initValues fun n => some n)).callCount :=
  eq_invokes_once_per_position (initValues fun n => some n) rfl rfl

/-- C9: `operator*` on a cell whose producer has already signalled
end-of-sequence throws `std::out_of_range` (modelled by the `none`
result), and likewise when no lookahead is cached and the next producer
invocation signals end-of-sequence: no value is ever returned by a
dereference past the last real producer value. -/
theorem deref_past_end_throws (v : Values α) :
    (v.last = true → (derefCell v).1 = none)
    ∧ (v.value_valid = false → v.fn v.callCount = none → (derefCell v).1 = none) := by
  constructor
  · intro hl
    cases hv : v.value_valid with
    | true => rw [derefCell_valid v hv]; simp [hl]
    | false => rw [derefCell_last v hv hl]
  · intro hv hf
    cases hl : v.last with
    | true => rw [derefCell_last v hv hl]
    | false => rw [derefCell_none v hv hl hf]

/-- Witness for C9: an exhausted cell and a fresh cell over an empty
producer. -/
theorem deref_past_end_throws_witness :
    (derefCell ({ last := true, value_valid := false, fn := fun _ => (none : Option Nat),
                  callCount := 1, value := none } : Values Nat)).1 = none
    ∧ (derefCell (initValues fun _ => (none : Option Nat))).1 = none :=
  ⟨(deref_past_end_throws _).1 rfl, (deref_past_end_throws _).2 rfl rfl⟩

/-- Calls recorded by `writeAll`: one consumer invocation per written
element, in order. -/
theorem writeAll_calls (xs : List α) : ∀ s : OutState α,
    (writeAll s xs).calls = s.calls ++ xs := by
  induction xs with
  | nil => intro s; simp [writeAll]
  | cons x xs ih =>
    intro s
    rw [writeAll, outInc, outDeref, ih, outAssign]
    simp

/-- C5: each assignment through the output adapter invokes the consumer
exactly once with the assigned value; `operator++` and `operator*` are
no-ops that invoke the consumer zero times and change no state; writing
a whole sequence through the sink invokes the consumer exactly once per
element, in order. -/
theorem out_adapter_invokes_once (s : OutState α) (x : α) (xs : List α) :
    (outAssign s x).calls = s.calls ++ [x]
    ∧ outInc s = s
    ∧ outDeref s = s
    ∧ (writeAll s xs).calls = s.calls ++ xs :=
  ⟨rfl, rfl, rfl, writeAll_calls xs s⟩

/-- Workers survive task failures: executing any queue of tasks leaves
the worker count unchanged and produces one final state per task. -/
theorem runAll_spec (ts : List (Except ε β)) : ∀ p : SpecPool,
    (runAll p ts).1.workers = p.workers ∧ (runAll p ts).2.length = ts.length := by
  induction ts with
  | nil => intro p; exact ⟨rfl, rfl⟩
  | cons t ts ih =>
    intro p
    obtain ⟨h1, h2⟩ := ih (runTask p t).1
    exact ⟨h1, by simp [runAll, h2]⟩

/-- C7 (spec-modelled): a task whose callable raises is captured, the
worker is not terminated (the pool's worker count does not shrink), the
handle transitions to `Failed` with the original error, `get()`
re-raises exactly that error, and the remaining queued tasks are all
still executed. -/
theorem failed_task_propagates (p : SpecPool) (t : Except ε β) (e : ε)
    (h : t = .error e) :
    (runTask p t).1.workers = p.workers
    ∧ (runTask p t).2 = .Failed e
    ∧ handleGet (runTask p t).2 = some (.error e)
    ∧ (∀ ts : List (Except ε β), (runAll p (t :: ts)).1.workers = p.workers)
    ∧ (∀ ts : List (Except ε β), (runAll p (t :: ts)).2.length = ts.length + 1) := by
  subst h
  refine ⟨rfl, rfl, rfl, ?_, ?_⟩
  · intro ts
    exact (runAll_spec (Except.error e :: ts) p).1
  · intro ts
    exact (runAll_spec (Except.error e :: ts) p).2

/-- The consumption loop from any live, uncached cell: it emits exactly
the remaining producer values, in invocation order. -/
theorem drain_go : ∀ (fuel : Nat) (v : Values α) (n : Nat),
    v.last = false → v.value_valid = false →
    (∀ j, j < n → (v.fn j).isSome) → v.fn n = none →
    v.callCount ≤ n → n - v.callCount < fuel →
    drain fuel v = (List.range' v.callCount (n - v.callCount)).filterMap v.fn := by
  intro fuel
  induction fuel with
  | zero =>
    intro v n _ _ _ _ _ hfuel
    exact absurd hfuel (Nat.not_lt_zero _)
  | succ fuel ih =>
    intro v n hl hv hsome hend hcc hfuel
    by_cases hceq : v.callCount = n
    · rw [drain, forceLookahead_none v hl hv (by rw [hceq]; exact hend)]
      simp [hceq]
    · have hclt : v.callCount < n := by omega
      obtain ⟨a, hf⟩ := Option.isSome_iff_exists.mp (hsome v.callCount hclt)
      rw [drain, forceLookahead_some v a hl hv hf]
      simp only [hl, Bool.false_eq_true, if_false]
      rw [derefCell_valid _ rfl]
      simp only [hl, Bool.false_eq_true, if_false]
      have ih2 := ih
        { last := v.last, value_valid := false, fn := v.fn,
          callCount := v.callCount + 1, value := some a }
        n hl rfl hsome hend (by simp; omega) (by simp; omega)
      rw [hl] at ih2
      rw [ih2]
      have hn : n - v.callCount = (n - (v.callCount + 1)) + 1 := by omega
      rw [hn, List.range'_succ, List.filterMap_cons, hf]

/-- C4: iterating the input adapter (repeating "compare against end,
dereference, advance" until the end query reports exhaustion) yields
exactly the values returned by the successive producer invocations, in
invocation order, each value exactly once, ending exactly at the first
end-of-sequence signal. -/
theorem drain_yields_producer_seq (fn : Nat → Option α) (n fuel : Nat)
    (hsome : ∀ j, j < n → (fn j).isSome) (hend : fn n = none) (hfuel : n < fuel) :
    drain fuel (initValues fn) = (List.range n).filterMap fn := by
  have h := drain_go fuel (initValues fn) n rfl rfl hsome hend (Nat.zero_le n)
    (by simpa [initValues] using hfuel)
  simpa [initValues, List.range_eq_range'] using h

/-- Witness for C4: the producer of the first three squares. -/
theorem drain_yields_producer_seq_witness :
    (∀ j, j < 3 → ((fun j => if j < 3 then some (j * j) else none) j).isSome)
    ∧ (fun j => if j < 3 then some (j * j) else none) 3 = none
    ∧ 3 < 5
    ∧ drain 5 (initValues fun j => if j < 3 then some (j * j) else none)
        = (List.range 3).filterMap fun j => if j < 3 then some (j * j) else none :=
  ⟨by decide, by decide, by decide,
   drain_yields_producer_seq (fun j => if j < 3 then some (j * j) else none) 3 5
     (by decide) (by decide) (by decide)⟩

/-- Unfolding `modifyAt` at a populated address gives `List.set`. -/
theorem modifyAt_eq_set (h : Heap α) (i : Nat) (f : Values α → Values α)
    (v : Values α) (hg : h.get? i = some v) :
    modifyAt h i f = h.set i (f v) := by
  unfold modifyAt
  rw [hg]

/-- Unfolding `modifyAt` at an empty address gives the identity. -/
theorem modifyAt_eq_self (h : Heap α) (i : Nat) (f : Values α → Values α)
    (hg : h.get? i = none) :
    modifyAt h i f = h := by
  unfold modifyAt
  rw [hg]

/-- Reading the modified address. -/
theorem get?_modifyAt_self (h : Heap α) (i : Nat) (f : Values α → Values α) :
    (modifyAt h i f).get? i = (h.get? i).map f := by
  cases hg : h.get? i with
  | none => rw [modifyAt_eq_self h i f hg, hg]; rfl
  | some v => rw [modifyAt_eq_set h i f v hg, List.get?_set_eq, hg]; rfl

/-- Reading an unmodified address. -/
theorem get?_modifyAt_ne (h : Heap α) (i j : Nat) (f : Values α → Values α)
    (hij : i ≠ j) :
    (modifyAt h i f).get? j = h.get? j := by
  cases hg : h.get? i with
  | none => rw [modifyAt_eq_self h i f hg]
  | some v => rw [modifyAt_eq_set h i f v hg]; exact List.get?_set_ne _ _ hij

/-- Two modifications of the same address compose. -/
theorem modifyAt_modifyAt_self (h : Heap α) (i : Nat)
    (f g : Values α → Values α) :
    modifyAt (modifyAt h i f) i g = modifyAt h i (fun v => g (f v)) := by
  cases hg : h.get? i with
  | none =>
    rw [modifyAt_eq_self h i f hg, modifyAt_eq_self h i g hg,
        modifyAt_eq_self h i _ hg]
  | some v =>
    have h1 : (modifyAt h i f).get? i = some (f v) := by
      rw [get?_modifyAt_self, hg]; rfl
    rw [modifyAt_eq_set _ i g (f v) h1, modifyAt_eq_set h i f v hg,
        modifyAt_eq_set h i _ v hg, List.set_set]

/-- Modifications of distinct addresses commute. -/
theorem modifyAt_comm (h : Heap α) (i j : Nat)
    (f g : Values α → Values α) (hij : i ≠ j) :
    modifyAt (modifyAt h i f) j g = modifyAt (modifyAt h j g) i f := by
  cases hgi : h.get? i with
  | none =>
    have hgi' : (modifyAt h j g).get? i = none := by
      rw [get?_modifyAt_ne h j i g (Ne.symm hij), hgi]
    rw [modifyAt_eq_self h i f hgi, modifyAt_eq_self _ i f hgi']
  | some vi =>
    cases hgj : h.get? j with
    | none =>
      have hgj' : (modifyAt h i f).get? j = none := by
        rw [get?_modifyAt_ne h i j f hij, hgj]
      rw [modifyAt_eq_self _ j g hgj', modifyAt_eq_self h j g hgj]
    | some vj =>
      have h1 : (modifyAt h i f).get? j = some vj := by
        rw [get?_modifyAt_ne h i j f hij, hgj]
      have h2 : (modifyAt h j g).get? i = some vi := by
        rw [get?_modifyAt_ne h j i g (Ne.symm hij), hgi]
      rw [modifyAt_eq_set _ j g vj h1, modifyAt_eq_set _ i f vi h2,
          modifyAt_eq_set h i f vi hgi, modifyAt_eq_set h j g vj hgj]
      exact List.set_comm _ _ _ hij

/-- Forcing twice at the same address is forcing once. -/
theorem forceAt_forceAt (h : Heap α) (a : Iter) :
    forceAt (forceAt h a) a = forceAt h a := by
  cases a with
  | none => rfl
  | some i =>
    show modifyAt (modifyAt h i forceLookahead) i forceLookahead
        = modifyAt h i forceLookahead
    rw [modifyAt_modifyAt_self]
    have : (fun v : Values α => forceLookahead (forceLookahead v)) = forceLookahead := by
      funext v
      exact forceLookahead_idem v
    rw [this]

/-- The two lookahead forcings of `operator==` commute: the final heap
does not depend on which side is forced first. -/
theorem forceAt_comm (h : Heap α) (a b : Iter) :
    forceAt (forceAt h a) b = forceAt (forceAt h b) a := by
  cases a with
  | none => rfl
  | some i =>
    cases b with
    | none => rfl
    | some j =>
      by_cases hij : i = j
      · subst hij; rfl
      · exact modifyAt_comm h i j forceLookahead forceLookahead hij

/-- Boolean equality is symmetric. -/
theorem bool_beq_comm (x y : Bool) : (x == y) = (y == x) := by
  cases x <;> cases y <;> rfl

/-- C8 (implicit in `operator==`): the comparison returns exactly the
equality of the two sides' end-status after forcing one lookahead on
each non-exhausted, non-null side; it is symmetric; a default-constructed
(null) iterator acts as the universal end marker, so comparing it with
any iterator answers precisely whether the other side is exhausted — in
particular any two non-exhausted iterators, over unrelated producers or
not, compare equal. -/
theorem eq_is_end_status_equality (h : Heap α) (a b : Iter) :
    (iterEq h a b).1 = ((isEnd (iterEq h a b).2 a) == (isEnd (iterEq h a b).2 b))
    ∧ (iterEq h b a).1 = (iterEq h a b).1
    ∧ (iterEq h none b).1 = isEnd (iterEq h none b).2 b
    ∧ isEnd h none = true := by
  refine ⟨rfl, ?_, ?_, rfl⟩
  · show ((isEnd (forceAt (forceAt h b) a) b) == (isEnd (forceAt (forceAt h b) a) a))
        = ((isEnd (forceAt (forceAt h a) b) a) == (isEnd (forceAt (forceAt h a) b) b))
    rw [forceAt_comm h b a]
    exact bool_beq_comm _ _
  · show ((isEnd (forceAt (forceAt h none) b) none) == (isEnd (forceAt (forceAt h none) b) b))
        = isEnd (forceAt (forceAt h none) b) b
    rw [show ∀ h' : Heap α, isEnd h' none = true from fun _ => rfl]
    cases isEnd (forceAt (forceAt h none) b) b <;> rfl

/-- A finished task with an in-range index adds its indexed result to
the store. -/
theorem completions_cons_some (f : α → β) (xs : List α) (j : Nat)
    (os : List Nat) (x : α) (hj : xs.get? j = some x) :
    completions f xs (j :: os) = (j, f x) :: completions f xs os := by
  have hj' : xs[j]? = some x := by rw [← List.get?_eq_getElem?]; exact hj
  simp [completions, List.filterMap_cons, hj']

/-- An out-of-range index contributes nothing to the store. -/
theorem completions_cons_none (f : α → β) (xs : List α) (j : Nat)
    (os : List Nat) (hj : xs.get? j = none) :
    completions f xs (j :: os) = completions f xs os := by
  have hj' : xs[j]? = none := by rw [← List.get?_eq_getElem?]; exact hj
  simp [completions, List.filterMap_cons, hj']

/-- Looking a submission index up in the completion store finds its
result, whatever position the completion order gave it. -/
theorem find_completions (f : α → β) (xs : List α) (i : Nat)
    (hi : i < xs.length) :
    ∀ order : List Nat, i ∈ order →
      (completions f xs order).find? (fun r => r.1 == i)
        = (xs.get? i).map fun x => (i, f x) := by
  intro order
  induction order with
  | nil => intro hmem; exact absurd hmem (List.not_mem_nil i)
  | cons j os ih =>
    intro hmem
    cases hj : xs.get? j with
    | none =>
      have hne : i ≠ j := by
        intro hc
        subst hc
        have := List.get?_eq_none.mp hj
        omega
      have hin : i ∈ os := by
        rcases List.mem_cons.mp hmem with hc | hc
        · exact absurd hc hne
        · exact hc
      rw [completions_cons_none f xs j os hj]
      exact ih hin
    | some x =>
      rw [completions_cons_some f xs j os x hj]
      by_cases hji : j = i
      · subst hji
        rw [List.find?_cons_of_pos _ (by simp), hj]
        rfl
      · rw [List.find?_cons_of_neg _ (by simp [hji])]
        have hin : i ∈ os := by
          rcases List.mem_cons.mp hmem with hc | hc
          · exact absurd hc.symm hji
          · exact hc
        exact ih hin

/-- Collecting by index over the whole index range reproduces the map. -/
theorem collect_range (xs : List α) (f : α → β) :
    (List.range xs.length).filterMap (fun i => (xs.get? i).map f) = xs.map f := by
  induction xs with
  | nil => rfl
  | cons x t ih =>
    show (List.range (t.length + 1)).filterMap (fun i => ((x :: t).get? i).map f)
        = f x :: t.map f
    rw [List.range_succ_eq_map, List.filterMap_cons, List.filterMap_map]
    have hcomp : ((fun i => ((x :: t).get? i).map f) ∘ Nat.succ)
        = fun i => (t.get? i).map f := by
      funext i
      rfl
    rw [hcomp, ih]
    rfl

/-- C6 (spec-modelled): whatever completion order the workers produce —
any permutation of the submission indices — the lazy output sequence of
`submit_range` yields exactly the images of the inputs in submission
order. -/
theorem submit_range_in_order (f : α → β) (xs : List α) (order : List Nat)
    (hperm : List.Perm order (List.range xs.length)) :
    submitRange f xs order = xs.map f := by
  rw [submitRange, collectInOrder]
  have hcongr : ∀ i ∈ List.range xs.length,
      ((completions f xs order).find? (fun r => r.1 == i)).map Prod.snd
        = (xs.get? i).map f := by
    intro i hi
    have hilt : i < xs.length := List.mem_range.mp hi
    have hmem : i ∈ order := hperm.mem_iff.mpr hi
    rw [find_completions f xs i hilt order hmem]
    cases hg : xs.get? i <;> rfl
  rw [List.filterMap_congr hcongr]
  exact collect_range xs f

/-- Witness for C6: squaring three inputs completed in scrambled
order. -/
theorem submit_range_in_order_witness :
    List.Perm [2, 0, 1] (List.range [1, 2, 3].length)
    ∧ submitRange (fun x => x * x) [1, 2, 3] [2, 0, 1] = [1, 2, 3].map fun x => x * x :=
  ⟨by decide, submit_range_in_order (fun x => x * x) [1, 2, 3] [2, 0, 1] (by decide)⟩

/-- C10 (implicit in `begin()`): each call to `begin()` allocates a
fresh `Values` cell holding its own copy of the range's shared producer
(in its never-invoked state, invocation count 0): two `begin()` calls
return iterators at distinct addresses, both cells start as
`initValues`, and consuming through the second iterator leaves the first
iterator's cell untouched (and vice versa) — only copies of one iterator
share a cursor. -/
theorem begin_makes_fresh_cursor (r : FunctionInputIteratorRange α) (h : Heap α) :
    (r.begin h).2 = some h.length
    ∧ (r.begin h).1.get? h.length = some (initValues r.fn)
    ∧ (r.begin (r.begin h).1).2 = some (h.length + 1)
    ∧ (r.begin (r.begin h).1).1.get? (h.length + 1) = some (initValues r.fn)
    ∧ (r.begin h).2 ≠ (r.begin (r.begin h).1).2
    ∧ (derefAt (r.begin (r.begin h).1).1 (some (h.length + 1))).2.get? h.length
        = (r.begin (r.begin h).1).1.get? h.length
    ∧ (derefAt (r.begin (r.begin h).1).1 (some h.length)).2.get? (h.length + 1)
        = (r.begin (r.begin h).1).1.get? (h.length + 1) := by
  have hlen1 : (h ++ [initValues r.fn]).length = h.length + 1 := by
    simp
  refine ⟨rfl, List.get?_concat_length h _, ?_, ?_, ?_, ?_, ?_⟩
  · show some (h ++ [initValues r.fn]).length = some (h.length + 1)
    rw [hlen1]
  · show ((h ++ [initValues r.fn]) ++ [initValues r.fn]).get? (h.length + 1)
        = some (initValues r.fn)
    rw [← hlen1]
    exact List.get?_concat_length _ _
  · show some h.length ≠ some (h ++ [initValues r.fn]).length
    rw [hlen1]
    simp
  · show (derefAt ((h ++ [initValues r.fn]) ++ [initValues r.fn])
        (some (h.length + 1))).2.get? h.length
      = ((h ++ [initValues r.fn]) ++ [initValues r.fn]).get? h.length
    rw [derefAt]
    cases hg : ((h ++ [initValues r.fn]) ++ [initValues r.fn]).get? (h.length + 1) with
    | none => rfl
    | some v =>
      exact List.get?_set_ne _ _ (by omega)
  · show (derefAt ((h ++ [initValues r.fn]) ++ [initValues r.fn])
        (some h.length)).2.get? (h.length + 1)
      = ((h ++ [initValues r.fn]) ++ [initValues r.fn]).get? (h.length + 1)
    rw [derefAt]
    cases hg : ((h ++ [initValues r.fn]) ++ [initValues r.fn]).get? h.length with
    | none => rfl
    | some v =>
      exact List.get?_set_ne _ _ (by omega)

/-- Witness for C7: a pool of four workers, a task failing with a
string error. -/
theorem failed_task_propagates_witness :
    (runTask ⟨4⟩ (Except.error "boom" : Except String Nat)).1.workers = 4
    ∧ (runTask ⟨4⟩ (Except.error "boom" : Except String Nat)).2 = .Failed "boom"
    ∧ handleGet (runTask ⟨4⟩ (Except.error "boom" : Except String Nat)).2
        = some (.error "boom")
    ∧ (∀ ts : List (Except String Nat),
        (runAll ⟨4⟩ (Except.error "boom" :: ts)).1.workers = 4)
    ∧ (∀ ts : List (Except String Nat),
        (runAll ⟨4⟩ (Except.error "boom" :: ts)).2.length = ts.length + 1) :=
  failed_task_propagates ⟨4⟩ (Except.error "boom") "boom" rfl

end ThreadPoolSpec
